import Mathlib

/-!
A shallow embedding of the `validate` schema-validation library.

The embedded code consists of the built-in validator functions
(`Validators.required`, `Validators.nonempty`, `Validators.type`,
`Validators.length`, `Validators.enum`, `Validators.matchRegexp`) and the
`Property` class (`constructor`, `_register`, the fluent builders, `_run`,
`_error`, `validate`).

JavaScript values are modelled by the inductive type `Value`; the external
type-classification primitive (component-type) is modelled by `typeOf`.
JavaScript object tables (the validator registry, the schema-level
validators table and messages table) are modelled by association lists in
which assignment replaces an existing key in place and appends a fresh key
at the end, exactly as JavaScript object keys behave.

Sharing of the schema-level tables between a Schema and its Properties is
modelled by a small heap: a `Store` maps table references (`Ref`) to table
contents, a `Schema` and a `Property` hold references, and the Property
constructor copies the references, never the contents.

A validator invocation on an entry whose name resolves to no function
(`validator.call` on `undefined` in JavaScript) throws a TypeError; this
is modelled by the `VResult.tyError` outcome, which propagates out of
`validate`.
-/

/-- Model of a JavaScript runtime value, restricted to the classifications
the embedded code distinguishes. -/
inductive Value where
  | vNull
  | vUndefined
  | vBool (b : Bool)
  | vNum (n : Int)
  | vStr (s : String)
  | vArr (elems : List Value)
  | vObj (fields : List (String × Value))
deriving Repr

mutual
/-- Structural equality on values (used by `Validators.enum` via
`Array.prototype.includes`). -/
def Value.beq : Value → Value → Bool
  | .vNull, .vNull => true
  | .vUndefined, .vUndefined => true
  | .vBool a, .vBool b => a == b
  | .vNum a, .vNum b => a == b
  | .vStr a, .vStr b => a == b
  | .vArr a, .vArr b => Value.beqList a b
  | .vObj a, .vObj b => Value.beqFields a b
  | _, _ => false

def Value.beqList : List Value → List Value → Bool
  | [], [] => true
  | x :: xs, y :: ys => Value.beq x y && Value.beqList xs ys
  | _, _ => false

def Value.beqFields : List (String × Value) → List (String × Value) → Bool
  | [], [] => true
  | (k1, x) :: xs, (k2, y) :: ys => k1 == k2 && Value.beq x y && Value.beqFields xs ys
  | _, _ => false
end

instance : BEq Value := ⟨Value.beq⟩

/-- The external type-classification primitive (`component-type`):
`typeOf(value)` returns the name of the runtime type. -/
def typeOf : Value → String
  | .vNull => "null"
  | .vUndefined => "undefined"
  | .vBool _ => "boolean"
  | .vNum _ => "number"
  | .vStr _ => "string"
  | .vArr _ => "array"
  | .vObj _ => "object"

/-- JavaScript `value == null` (loose equality: true exactly for `null`
and `undefined`). -/
def Value.isNullish : Value → Bool
  | .vNull => true
  | .vUndefined => true
  | _ => false

/-- JavaScript `value.length` for the string/array cases the embedded code
reads it on (`0` elsewhere; the code only reads `.length` under a
string/array classification). -/
def Value.lengthOf : Value → Nat
  | .vStr s => s.length
  | .vArr xs => xs.length
  | _ => 0

/-- JavaScript `Object.keys(value)` for objects (`[]` elsewhere). -/
def Value.keysOf : Value → List String
  | .vObj fields => fields.map (·.1)
  | _ => []

/-- Lookup in a JavaScript-object-as-table: the value stored under key
`k`, or `none` when absent. -/
def assocGet (l : List (String × α)) (k : String) : Option α :=
  (l.find? (fun p => p.1 == k)).map (·.2)

/-- Assignment in a JavaScript-object-as-table: replaces an existing key
in place (keeping its position in key order) and appends a fresh key. -/
def assocSet : List (String × α) → String → α → List (String × α)
  | [], k, v => [(k, v)]
  | (k2, v2) :: rest, k, v =>
    if k2 == k then (k, v) :: rest else (k2, v2) :: assocSet rest k v

/-- Argument attached to a registered validator (`arg` in the registry):
the booleans of `required`/`nonempty`, the type name of `type`, the
`{min, max}` rules of `length`, the allowed list of `enum`, the regular
expression of `match` (modelled extensionally by its `test` predicate),
and `null` for entries registered through `use`. -/
inductive Arg where
  | aNull
  | aBool (b : Bool)
  | aStr (s : String)
  | aRules (min max : Option Nat)
  | aList (vs : List Value)
  | aRegex (test : Value → Bool)

/-- A validation function `(value, ctx, arg) -> boolean`. -/
abbrev ValidatorFn := Value → Value → Arg → Bool

/-- JavaScript truthiness of an optional numeric bound (`undefined` and
`0` are falsy). -/
def boundTruthy : Option Nat → Bool
  | none => false
  | some m => m != 0

namespace Validators

/-- Built-in `required` validator (src/unnamed/part_000):
`if (required === false) return true; return value != null;` -/
def required (value _ctx : Value) (arg : Arg) : Bool :=
  match arg with
  | .aBool false => true
  | _ => !value.isNullish

/-- Built-in `nonempty` validator (src/unnamed/part_000): switches on
`typeOf(value)`; strings/arrays are non-empty when `.length > 0`, objects
when they have a key, anything else when it is not null-ish. -/
def nonempty (value _ctx : Value) (arg : Arg) : Bool :=
  match arg with
  | .aBool false => true
  | _ =>
    match typeOf value with
    | "string" => decide (value.lengthOf > 0)
    | "array" => decide (value.lengthOf > 0)
    | "object" => decide (value.keysOf.length > 0)
    | _ => !value.isNullish

/-- Built-in `type` validator (src/unnamed/part_000):
`typeOf(value) == name`. -/
def type (value _ctx : Value) (arg : Arg) : Bool :=
  match arg with
  | .aStr name => typeOf value == name
  | _ => false

/-- Built-in `length` validator (src/unnamed/part_000):
`if (min && value.length < min) return false;
 if (max && value.length > max) return false; return true;`
(a bound of `0` is falsy in JavaScript, so it is not enforced). -/
def length (value _ctx : Value) (arg : Arg) : Bool :=
  match arg with
  | .aRules min max =>
    if boundTruthy min && decide (value.lengthOf < min.getD 0) then false
    else if boundTruthy max && decide (value.lengthOf > max.getD 0) then false
    else true
  | _ => true

/-- Built-in `enum` validator (src/unnamed/part_000):
`enums.includes(value)`. -/
def enum (value _ctx : Value) (arg : Arg) : Bool :=
  match arg with
  | .aList vs => vs.contains value
  | _ => false

/-- Built-in `match` validator (src/unnamed/part_000):
`regexp.test(value)`. (`match` is a Lean keyword, hence the name.) -/
def matchRegexp (value _ctx : Value) (arg : Arg) : Bool :=
  match arg with
  | .aRegex test => test value
  | _ => false

end Validators

/-- A message template: a plain string or a generator function of
`(path, arg)`. -/
inductive MessageTemplate where
  | strT (s : String)
  | fnT (f : String → Arg → String)

/-- JavaScript truthiness of an optional message template (the empty
string is falsy). -/
def templateTruthy : Option MessageTemplate → Bool
  | none => false
  | some (.strT s) => s != ""
  | some (.fnT _) => true

/-- Reference to a shared table in the heap. -/
abbrev Ref := Nat

/-- The heap of shared schema-level tables: validator tables and message
tables, addressed by reference. -/
structure Store where
  vtables : Ref → List (String × ValidatorFn)
  mtables : Ref → List (String × MessageTemplate)

/-- Mutate (in place) the entry `name` of the validators table at
reference `r`: every holder of `r` sees the new function. -/
def Store.setValidator (st : Store) (r : Ref) (name : String) (f : ValidatorFn) : Store :=
  { st with vtables := fun r2 => if r2 == r then assocSet (st.vtables r) name f else st.vtables r2 }

/-- Mutate (in place) the entry `name` of the messages table at
reference `r`. -/
def Store.setMessage (st : Store) (r : Ref) (name : String) (t : MessageTemplate) : Store :=
  { st with mtables := fun r2 => if r2 == r then assocSet (st.mtables r) name t else st.mtables r2 }

/-- The part of a Schema instance that `Property` reads: the references
to its shared `validators` and `messages` tables. -/
structure Schema where
  validatorsRef : Ref
  messagesRef : Ref

/-- A registry entry `{ arg, fn }` (src/unnamed/part_001, `_register`). -/
structure RegEntry where
  arg : Arg
  fn : Option ValidatorFn

/-- The `Property` class (src/unnamed/part_001). `_type` is the declared
type recorded by `.type()`; `validatorsRef`/`messagesRef` model the
constructor's `this.validators = schema.validators` and
`this.messages = schema.messages` reference copies. -/
structure Property where
  name : String
  registry : List (String × RegEntry)
  _type : Option String
  validatorsRef : Ref
  messagesRef : Ref

/-- The `Property` constructor: stores the name, an empty registry, a null
declared type, and references (not copies) to the schema's tables. -/
def Property.construct (name : String) (schema : Schema) : Property :=
  { name := name, registry := [], _type := none,
    validatorsRef := schema.validatorsRef, messagesRef := schema.messagesRef }

/-- `Property._register(type, arg, fn)`:
`this.registry[type] = { arg, fn }`. -/
def Property._register (p : Property) (type : String) (arg : Arg)
    (fn : Option ValidatorFn := none) : Property :=
  { p with registry := assocSet p.registry type { arg := arg, fn := fn } }

/-- `Property.required(bool = true)`. -/
def Property.required (p : Property) (bool : Bool := true) : Property :=
  p._register "required" (.aBool bool)

/-- `Property.type(type)`: records the declared type and registers the
`type` validator. -/
def Property.type (p : Property) (type : String) : Property :=
  Property._register { p with _type := some type } "type" (.aStr type)

/-- `Property.length(rules)` with `rules = {min, max}`. -/
def Property.length (p : Property) (min max : Option Nat) : Property :=
  p._register "length" (.aRules min max)

/-- `Property.enum(enums)`. -/
def Property.enum (p : Property) (enums : List Value) : Property :=
  p._register "enum" (.aList enums)

/-- `Property.match(regexp)` (named `matchRegexp` because `match` is a
Lean keyword). -/
def Property.matchRegexp (p : Property) (regexp : Value → Bool) : Property :=
  p._register "match" (.aRegex regexp)

/-- `Property.use(fns)`: registers each named function, in key order,
with a `null` argument and the function as the per-property override. -/
def Property.use (p : Property) (fns : List (String × ValidatorFn)) : Property :=
  fns.foldl (fun q nf => q._register nf.1 .aNull (some nf.2)) p

/-- The error value built by `Property._error` (`new Error(message)` with
`err.path = path`). -/
structure VError where
  message : String
  path : String
deriving DecidableEq, Repr

/-- Outcome of `_run`/`validate`: `pass` models the JavaScript returns of
`undefined`/`false` (no error), `fail e` models a returned `Error` with
`message` and `path`, and `tyError` models the `TypeError` thrown when
`validator.call` is reached with `validator === undefined`. -/
inductive VResult where
  | pass
  | fail (e : VError)
  | tyError
deriving DecidableEq, Repr

/-- `Property._error(type, arg, path)`:
`let message = this.messages[type] || this.messages.default;` then a
function template is applied to `(path, arg)`; the error carries the
message and the path. (`new Error(undefined)` has an empty message.) -/
def Property._error (messages : List (String × MessageTemplate)) (type : String)
    (arg : Arg) (path : String) : VError :=
  let message :=
    if templateTruthy (assocGet messages type) then assocGet messages type
    else assocGet messages "default"
  match message with
  | some (.strT s) => { message := s, path := path }
  | some (.fnT f) => { message := f path arg, path := path }
  | none => { message := "", path := path }

/-- `Property._run(type, value, ctx, path)`: returns nothing when the
name is not in the registry; otherwise resolves
`fn || this.validators[type]`, throws a TypeError when that is
`undefined`, and otherwise calls the validator, building an error when it
rejects. -/
def Property._run (st : Store) (p : Property) (type : String) (value ctx : Value)
    (path : String) : VResult :=
  match assocGet p.registry type with
  | none => .pass
  | some en =>
    match en.fn.orElse (fun _ => assocGet (st.vtables p.validatorsRef) type) with
    | none => .tyError
    | some validator =>
      if validator value ctx en.arg then .pass
      else .fail (Property._error (st.mtables p.messagesRef) type en.arg path)

/-- The loop at the end of `Property.validate`:
`for (let type of types) { if (done[type]) continue;
 if (error = this._run(...)) return error; }`. -/
def Property.runRemaining (st : Store) (p : Property) (types done : List String)
    (value ctx : Value) (path : String) : VResult :=
  match types with
  | [] => .pass
  | t :: rest =>
    if done.contains t then Property.runRemaining st p rest done value ctx path
    else
      match Property._run st p t value ctx path with
      | .pass => Property.runRemaining st p rest done value ctx path
      | out => out

/-- `Property.validate(value, ctx, path = this.name)`: `required` first,
then the null-ish short-circuit, then `type`, then the remaining
registered validators with `done = {required: true, type: true}`. -/
def Property.validate (st : Store) (p : Property) (value ctx : Value)
    (path : String := p.name) : VResult :=
  let types := p.registry.map (·.1)
  match Property._run st p "required" value ctx path with
  | .pass =>
    if value.isNullish then .pass
    else
      match Property._run st p "type" value ctx path with
      | .pass => Property.runRemaining st p types ["required", "type"] value ctx path
      | out2 => out2
  | out1 => out1

/-- The validator function `_run` resolves for a name:
`fn || this.validators[type]`, or `none` when the name is not registered
or resolves to `undefined`. -/
def Property.effectiveValidator (st : Store) (p : Property) (type : String) :
    Option ValidatorFn :=
  match assocGet p.registry type with
  | none => none
  | some en => en.fn.orElse (fun _ => assocGet (st.vtables p.validatorsRef) type)

/-- Trace-instrumented `_run`: same outcome as `Property._run`, paired
with the names of the validator functions it actually invoked (`[type]`
when a function was called, `[]` when the entry was skipped or the
resolution threw before any call). -/
def Property.runT (st : Store) (p : Property) (type : String) (value ctx : Value)
    (path : String) : VResult × List String :=
  match assocGet p.registry type with
  | none => (.pass, [])
  | some en =>
    match en.fn.orElse (fun _ => assocGet (st.vtables p.validatorsRef) type) with
    | none => (.tyError, [])
    | some validator =>
      if validator value ctx en.arg then (.pass, [type])
      else (.fail (Property._error (st.mtables p.messagesRef) type en.arg path), [type])

/-- Trace-instrumented form of the loop at the end of
`Property.validate`. -/
def Property.runRemainingT (st : Store) (p : Property) (types done : List String)
    (value ctx : Value) (path : String) : VResult × List String :=
  match types with
  | [] => (.pass, [])
  | t :: rest =>
    if done.contains t then Property.runRemainingT st p rest done value ctx path
    else
      match Property.runT st p t value ctx path with
      | (.pass, tr) =>
        let r := Property.runRemainingT st p rest done value ctx path
        (r.1, tr ++ r.2)
      | out => out

/-- Trace-instrumented `Property.validate`: same outcome, paired with the
ordered list of validator invocations the call performed. -/
def Property.validateTrace (st : Store) (p : Property) (value ctx : Value)
    (path : String) : VResult × List String :=
  let types := p.registry.map (·.1)
  match Property.runT st p "required" value ctx path with
  | (.pass, tr1) =>
    if value.isNullish then (.pass, tr1)
    else
      match Property.runT st p "type" value ctx path with
      | (.pass, tr2) =>
        let r := Property.runRemainingT st p types ["required", "type"] value ctx path
        (r.1, tr1 ++ tr2 ++ r.2)
      | (out2, tr2) => (out2, tr1 ++ tr2)
  | out1 => out1

/-- Runs the named validators in list order, stopping at the first
non-passing outcome (used below to state the evaluation order the
specification describes). -/
def runSeqT (st : Store) (p : Property) (names : List String) (value ctx : Value)
    (path : String) : VResult × List String :=
  match names with
  | [] => (.pass, [])
  | t :: rest =>
    match Property.runT st p t value ctx path with
    | (.pass, tr) =>
      let r := runSeqT st p rest value ctx path
      (r.1, tr ++ r.2)
    | out => out

/-- Follows the claim's words, not the source: `required` is evaluated
first and short-circuits everything on failure; when the value is null-ish
and the required check passed, validation stops and succeeds; otherwise
`type` runs next, and then every other registered validator runs in
registration order, stopping at the first failure. -/
def claimOrderTrace (st : Store) (p : Property) (value ctx : Value)
    (path : String) : VResult × List String :=
  match Property.runT st p "required" value ctx path with
  | (.pass, tr1) =>
    if value.isNullish then (.pass, tr1)
    else
      match Property.runT st p "type" value ctx path with
      | (.pass, tr2) =>
        let others := (p.registry.map (·.1)).filter (fun t => t != "required" && t != "type")
        let r := runSeqT st p others value ctx path
        (r.1, tr1 ++ tr2 ++ r.2)
      | (out2, tr2) => (out2, tr1 ++ tr2)
  | out1 => out1

/-- `Property.typecast(value)`: `if (!this._type) return value;` then
delegate to the external coercion primitive for the declared type (an
empty declared type name is falsy in JavaScript). The primitive itself is
out of scope and is passed in as `coerce`. -/
def Property.typecastValue (coerce : Value → String → Value) (p : Property)
    (value : Value) : Value :=
  match p._type with
  | none => value
  | some t => if t == "" then value else coerce value t

/-- Splits a dot-delimited path into its segments. -/
def splitPath (path : String) : List String := path.splitOn "."

/-- Modelled from the spec: the external dot-path read primitive (§6),
`get(obj, "a.b.c")`; each segment indexes into a mapping or sequence, and
a missing intermediate segment yields `undefined`. -/
def pathGet (v : Value) : List String → Value
  | [] => v
  | k :: rest =>
    match v with
    | .vObj fs => pathGet ((assocGet fs k).getD .vUndefined) rest
    | .vArr xs =>
      match k.toNat? with
      | some i => pathGet ((xs.drop i).headD .vUndefined) rest
      | none => pathGet .vUndefined rest
    | _ => pathGet .vUndefined rest

/-- Modelled from the spec: the external dot-path write primitive (§6),
`set(obj, "a.b.c", value)`; a missing intermediate segment is a no-op
(never auto-creates intermediate structure). -/
def pathSet (v : Value) (segs : List String) (nv : Value) : Value :=
  match segs, v with
  | [], _ => nv
  | [k], .vObj fs => .vObj (assocSet fs k nv)
  | [k], .vArr xs =>
    match k.toNat? with
    | some i => .vArr (xs.set i nv)
    | none => v
  | [_], _ => v
  | k :: rest, .vObj fs =>
    match assocGet fs k with
    | some x => .vObj (assocSet fs k (pathSet x rest nv))
    | none => v
  | k :: rest, .vArr xs =>
    match k.toNat? with
    | some i =>
      if h : i < xs.length then .vArr (xs.set i (pathSet (xs.get ⟨i, h⟩) rest nv))
      else v
    | none => v
  | _ :: _, _ => v

/-- Does some declared path lie at or below the given segment prefix? -/
def coveredBy (paths : List (List String)) (pre : List String) : Bool :=
  paths.any (fun p =>
    ((pre.zip p).all (fun q => q.1 == q.2)) && decide (pre.length ≤ p.length))

mutual
/-- Modelled from the spec: stripping (§4.2 step 2) — remove, recursively,
every object key whose path is not covered by a declared path; array
elements are visited under a `$` segment. -/
def stripValue (paths : List (List String)) (pre : List String) : Value → Value
  | .vObj fs => .vObj (stripFields paths pre fs)
  | .vArr xs => .vArr (stripElems paths pre xs)
  | v => v

def stripFields (paths : List (List String)) (pre : List String) :
    List (String × Value) → List (String × Value)
  | [] => []
  | (k, x) :: rest =>
    if coveredBy paths (pre ++ [k]) then
      (k, stripValue paths (pre ++ [k]) x) :: stripFields paths pre rest
    else stripFields paths pre rest

def stripElems (paths : List (List String)) (pre : List String) : List Value → List Value
  | [] => []
  | x :: rest => stripValue paths (pre ++ ["$"]) x :: stripElems paths pre rest
end

/-- Modelled from the spec: expansion of a declared path against an
object (§4.2 step 3) — a `$` segment is applied to every index of the
array found at that point (a missing or empty array produces no
instances); other segments are read directly. Returns the concrete paths
together with the values found at them. -/
def enumeratePath (obj : Value) (cur : List String) :
    (segs : List String) → List (List String × Value)
  | [] => [(cur, obj)]
  | "$" :: rest =>
    match obj with
    | .vArr xs =>
      (xs.enum).flatMap (fun ix => enumeratePath ix.2 (cur ++ [toString ix.1]) rest)
    | _ => []
  | k :: rest =>
    match obj with
    | .vObj fs => enumeratePath ((assocGet fs k).getD .vUndefined) (cur ++ [k]) rest
    | _ => enumeratePath .vUndefined (cur ++ [k]) rest

/-- Modelled from the spec: the Schema state the validation walk reads —
the flat ordered `paths` mapping (dot-path → Property) and the
constructor-time option defaults (§3, §4.2). The shared tables live in
the `Store`. -/
structure SchemaS where
  paths : List (String × Property)
  typecastOpt : Bool
  stripOpt : Bool

/-- Call-time options for `Schema.validate`, merged over the
constructor-time defaults (§4.2 step 1). -/
structure ValidateOpts where
  typecast : Option Bool := none
  strip : Option Bool := none

/-- Modelled from the spec: `Schema.validate(obj, opts)` (§4.2; the
Schema class of this repository is not under src/). Resolves options,
strips undeclared keys, then for every declared path (in declaration
order) expands `$` segments, optionally typecasts the value in place, and
runs the matching Property's `validate` with the whole object as context,
collecting the failures in order. Returns the failure list and the
(possibly stripped/typecast) object. -/
def SchemaS.validate (st : Store) (coerce : Value → String → Value) (S : SchemaS)
    (obj : Value) (opts : ValidateOpts := {}) : List VError × Value :=
  let tc := opts.typecast.getD S.typecastOpt
  let sp := opts.strip.getD S.stripOpt
  let declared := S.paths.map (fun pr => splitPath pr.1)
  let obj := if sp then stripValue declared [] obj else obj
  S.paths.foldl
    (fun acc pr =>
      (enumeratePath acc.2 [] (splitPath pr.1)).foldl
        (fun acc2 inst =>
          let v := pathGet acc2.2 inst.1
          let v2 := if tc then Property.typecastValue coerce pr.2 v else v
          let o2 := if tc then pathSet acc2.2 inst.1 v2 else acc2.2
          match Property.validate st pr.2 v2 o2 (String.intercalate "." inst.1) with
          | .pass => (acc2.1, o2)
          | .fail e => (acc2.1 ++ [e], o2)
          | .tyError => (acc2.1, o2))
        acc)
    (([] : List VError), obj)

/-! ### Concrete fixtures used by the witness theorems -/

/-- The built-in validator table with which a Schema seeds its shared
`validators` table. -/
def builtinValidators : List (String × ValidatorFn) :=
  [("required", Validators.required), ("nonempty", Validators.nonempty),
   ("type", Validators.type), ("length", Validators.length),
   ("enum", Validators.enum), ("match", Validators.matchRegexp)]

/-- A message table with named function templates and a `default`
fallback. -/
def fixtureMessages : List (String × MessageTemplate) :=
  [("required", .fnT (fun path _ => path ++ " is required")),
   ("type", .fnT (fun path _ => path ++ " has wrong type")),
   ("default", .strT "validation failed")]

/-- A store holding the built-in validators and the fixture messages at
reference `0`. -/
def fixtureStore : Store :=
  { vtables := fun r => if r == 0 then builtinValidators else [],
    mtables := fun r => if r == 0 then fixtureMessages else [] }

/-- A schema whose shared tables live at reference `0`. -/
def fixtureSchema : Schema := { validatorsRef := 0, messagesRef := 0 }

/-- A store in which every table is empty. -/
def emptyStore : Store := { vtables := fun _ => [], mtables := fun _ => [] }

/-- `schema.path('name').required().type('string').length({min: 2, max: 5})`. -/
def fixtureProp : Property :=
  (((Property.construct "name" fixtureSchema).required).type "string").length
    (some 2) (some 5)

/-- A property registering (without an override function) a validator
name that appears in no validators table. -/
def orphanProp : Property :=
  (Property.construct "x" fixtureSchema)._register "exotic" .aNull

/-! ### Association-table lemmas -/

theorem assocGet_assocSet_self (l : List (String × α)) (k : String) (v : α) :
    assocGet (assocSet l k v) k = some v := by
  induction l with
  | nil => simp [assocGet, assocSet, List.find?]
  | cons hd tl ih =>
    rcases hd with ⟨k2, v2⟩
    by_cases h : k2 = k
    · simp [assocSet, assocGet, List.find?, h]
    · have hb : (k2 == k) = false := by simp [h]
      simp [assocSet, assocGet, List.find?, hb] at ih ⊢
      exact ih

theorem assocGet_assocSet_ne (l : List (String × α)) (k k2 : String) (v : α)
    (h : k ≠ k2) : assocGet (assocSet l k v) k2 = assocGet l k2 := by
  induction l with
  | nil =>
    have hb : (k == k2) = false := by simp [h]
    simp [assocGet, assocSet, List.find?, hb]
  | cons hd tl ih =>
    rcases hd with ⟨k3, v3⟩
    by_cases h3 : k3 = k
    · have hb : (k3 == k) = true := by simp [h3]
      have hkk2 : (k == k2) = false := by simp [h]
      have hk32 : (k3 == k2) = false := by rw [h3]; exact hkk2
      simp [assocSet, assocGet, List.find?, hb, hkk2, hk32]
    · have hb : (k3 == k) = false := by simp [h3]
      by_cases h4 : k3 = k2
      · have hb4 : (k3 == k2) = true := by simp [h4]
        simp [assocSet, assocGet, List.find?, hb, hb4]
      · have hb4 : (k3 == k2) = false := by simp [h4]
        simp [assocSet, assocGet, List.find?, hb, hb4] at ih ⊢
        exact ih

theorem mem_keys_assocGet (l : List (String × α)) (t : String)
    (h : t ∈ l.map (·.1)) : ∃ v, assocGet l t = some v := by
  induction l with
  | nil => simp at h
  | cons hd tl ih =>
    rcases hd with ⟨k, v⟩
    by_cases hk : k = t
    · exact ⟨v, by simp [assocGet, List.find?, hk]⟩
    · have : t ∈ tl.map (·.1) := by
        simp at h
        rcases h with h | h
        · exact absurd h.symm hk
        · simpa using h
      rcases ih this with ⟨w, hw⟩
      refine ⟨w, ?_⟩
      have hb : (k == t) = false := by simp [hk]
      simp [assocGet, List.find?, hb] at hw ⊢
      exact hw

theorem assocGet_mem_keys (l : List (String × α)) (t : String) (v : α)
    (h : assocGet l t = some v) : t ∈ l.map (·.1) := by
  induction l with
  | nil => simp [assocGet, List.find?] at h
  | cons hd tl ih =>
    rcases hd with ⟨k, v2⟩
    by_cases hk : k = t
    · simp [hk]
    · have hb : (k == t) = false := by simp [hk]
      have h2 : assocGet tl t = some v := by
        simpa [assocGet, List.find?, hb] using h
      simp [ih h2]

theorem assocSet_keys (l : List (String × α)) (k : String) (v : α) :
    (assocSet l k v).map (·.1) =
      if k ∈ l.map (·.1) then l.map (·.1) else l.map (·.1) ++ [k] := by
  induction l with
  | nil => simp [assocSet]
  | cons hd tl ih =>
    rcases hd with ⟨k2, v2⟩
    by_cases h : k2 = k
    · simp [assocSet, h]
    · have hb : (k2 == k) = false := by simp [h]
      have hne : ¬k = k2 := fun hc => h hc.symm
      by_cases hm : k ∈ tl.map (·.1)
      · simp [assocSet, hb, ih, hm, hne]
      · simp [assocSet, hb, ih, hm, hne]

/-! ### Relating `_run`, its trace form, and `effectiveValidator` -/

theorem runT_fst (st : Store) (p : Property) (t : String) (value ctx : Value)
    (path : String) :
    (Property.runT st p t value ctx path).1 = Property._run st p t value ctx path := by
  rcases hr : assocGet p.registry t with _ | en
  · simp [Property.runT, Property._run, hr]
  · rcases he : en.fn.orElse (fun _ => assocGet (st.vtables p.validatorsRef) t) with _ | f
    · simp [Property.runT, Property._run, hr, he]
    · by_cases h : f value ctx en.arg <;> simp [Property.runT, Property._run, hr, he, h]

theorem runT_trace (st : Store) (p : Property) (t : String) (value ctx : Value)
    (path : String) :
    (Property.runT st p t value ctx path).2 = [] ∨
      (Property.runT st p t value ctx path).2 = [t] := by
  rcases hr : assocGet p.registry t with _ | en
  · simp [Property.runT, hr]
  · rcases he : en.fn.orElse (fun _ => assocGet (st.vtables p.validatorsRef) t) with _ | f
    · simp [Property.runT, hr, he]
    · by_cases h : f value ctx en.arg <;> simp [Property.runT, hr, he, h]

theorem run_not_registered (st : Store) (p : Property) (t : String) (value ctx : Value)
    (path : String) (h : assocGet p.registry t = none) :
    Property._run st p t value ctx path = .pass := by
  simp [Property._run, h]

theorem run_unresolved (st : Store) (p : Property) (t : String) (value ctx : Value)
    (path : String) (en : RegEntry) (h : assocGet p.registry t = some en)
    (hfn : en.fn = none) (hv : assocGet (st.vtables p.validatorsRef) t = none) :
    Property._run st p t value ctx path = .tyError := by
  simp [Property._run, h, hfn, hv, Option.orElse]

theorem run_resolved (st : Store) (p : Property) (t : String) (value ctx : Value)
    (path : String) (en : RegEntry) (f : ValidatorFn)
    (h : assocGet p.registry t = some en)
    (hf : Property.effectiveValidator st p t = some f) :
    Property._run st p t value ctx path =
      (if f value ctx en.arg then .pass
       else .fail (Property._error (st.mtables p.messagesRef) t en.arg path)) := by
  have he : en.fn.orElse (fun _ => assocGet (st.vtables p.validatorsRef) t) = some f := by
    simpa [Property.effectiveValidator, h] using hf
  by_cases hb : f value ctx en.arg <;> simp [Property._run, h, he, hb]

theorem runT_fail (st : Store) (p : Property) (t : String) (value ctx : Value)
    (path : String) (e : VError) (tr : List String)
    (h : Property.runT st p t value ctx path = (.fail e, tr)) :
    tr = [t] ∧ ∃ en f, assocGet p.registry t = some en ∧
      Property.effectiveValidator st p t = some f ∧ f value ctx en.arg = false ∧
      e = Property._error (st.mtables p.messagesRef) t en.arg path := by
  rcases hr : assocGet p.registry t with _ | en
  · simp [Property.runT, hr] at h
  · rcases he : en.fn.orElse (fun _ => assocGet (st.vtables p.validatorsRef) t) with _ | f
    · simp [Property.runT, hr, he] at h
    · by_cases hb : f value ctx en.arg
      · simp [Property.runT, hr, he, hb] at h
      · have hrun : Property.runT st p t value ctx path =
            (.fail (Property._error (st.mtables p.messagesRef) t en.arg path), [t]) := by
          simp [Property.runT, hr, he, hb]
        rw [hrun] at h
        have h1 := congrArg Prod.fst h
        have h2 := congrArg Prod.snd h
        simp only [] at h1 h2
        refine ⟨h2.symm, en, f, rfl, ?_, by simpa using hb, (VResult.fail.inj h1).symm⟩
        simp [Property.effectiveValidator, hr, he]

theorem runT_pass (st : Store) (p : Property) (t : String) (value ctx : Value)
    (path : String) (tr : List String)
    (h : Property.runT st p t value ctx path = (.pass, tr)) :
    tr = [] ∨ (tr = [t] ∧ ∃ en f, assocGet p.registry t = some en ∧
      Property.effectiveValidator st p t = some f ∧ f value ctx en.arg = true) := by
  rcases hr : assocGet p.registry t with _ | en
  · have hrun : Property.runT st p t value ctx path = (.pass, []) := by
      simp [Property.runT, hr]
    rw [hrun] at h
    exact Or.inl (congrArg Prod.snd h).symm
  · rcases he : en.fn.orElse (fun _ => assocGet (st.vtables p.validatorsRef) t) with _ | f
    · simp [Property.runT, hr, he] at h
    · by_cases hb : f value ctx en.arg
      · have hrun : Property.runT st p t value ctx path = (.pass, [t]) := by
          simp [Property.runT, hr, he, hb]
        rw [hrun] at h
        refine Or.inr ⟨(congrArg Prod.snd h).symm, en, f, rfl, ?_, hb⟩
        simp [Property.effectiveValidator, hr, he]
      · simp [Property.runT, hr, he, hb] at h

/-! ### Relating the validate loop to the claimed evaluation order -/

theorem runRemainingT_fst (st : Store) (p : Property) (types done : List String)
    (value ctx : Value) (path : String) :
    (Property.runRemainingT st p types done value ctx path).1 =
      Property.runRemaining st p types done value ctx path := by
  induction types with
  | nil => rfl
  | cons t rest ih =>
    by_cases hd : t ∈ done
    · simp [Property.runRemainingT, Property.runRemaining, hd, ih]
    · rcases hrt : Property.runT st p t value ctx path with ⟨out, tr⟩
      have hfst := runT_fst st p t value ctx path
      rw [hrt] at hfst
      cases out with
      | pass =>
        simp [Property.runRemainingT, Property.runRemaining, hd, hrt, ← hfst, ih]
      | fail e =>
        simp [Property.runRemainingT, Property.runRemaining, hd, hrt, ← hfst]
      | tyError =>
        simp [Property.runRemainingT, Property.runRemaining, hd, hrt, ← hfst]

theorem validateTrace_fst (st : Store) (p : Property) (value ctx : Value)
    (path : String) :
    (Property.validateTrace st p value ctx path).1 =
      Property.validate st p value ctx path := by
  unfold Property.validateTrace Property.validate
  rcases h1 : Property.runT st p "required" value ctx path with ⟨out1, tr1⟩
  have hf1 := runT_fst st p "required" value ctx path
  rw [h1] at hf1
  cases out1 with
  | pass =>
    by_cases hn : value.isNullish
    · simp [← hf1, hn]
    · have hn2 : value.isNullish = false := by simpa using hn
      rcases h2 : Property.runT st p "type" value ctx path with ⟨out2, tr2⟩
      have hf2 := runT_fst st p "type" value ctx path
      rw [h2] at hf2
      cases out2 with
      | pass => simp [← hf1, hn2, h2, ← hf2, runRemainingT_fst]
      | fail e => simp [← hf1, hn2, h2, ← hf2]
      | tyError => simp [← hf1, hn2, h2, ← hf2]
  | fail e => simp [← hf1]
  | tyError => simp [← hf1]

theorem runRemainingT_eq_filter (st : Store) (p : Property) (types done : List String)
    (value ctx : Value) (path : String) :
    Property.runRemainingT st p types done value ctx path =
      runSeqT st p (types.filter (fun t => !done.contains t)) value ctx path := by
  induction types with
  | nil => rfl
  | cons t rest ih =>
    by_cases hd : t ∈ done
    · simp [Property.runRemainingT, List.filter_cons, hd, ih]
    · rcases hrt : Property.runT st p t value ctx path with ⟨out, tr⟩
      cases out <;>
        simp [Property.runRemainingT, runSeqT, List.filter_cons, hd, hrt, ih]

theorem validateTrace_eq_claimOrder (st : Store) (p : Property) (value ctx : Value)
    (path : String) :
    Property.validateTrace st p value ctx path = claimOrderTrace st p value ctx path := by
  have hfun : (fun t => !decide (t = "required") && !decide (t = "type")) =
      (fun t : String => t != "required" && t != "type") := by
    funext t
    by_cases hr : t = "required" <;> by_cases ht : t = "type" <;> simp [hr, ht, bne]
  unfold Property.validateTrace claimOrderTrace
  rcases h1 : Property.runT st p "required" value ctx path with ⟨out1, tr1⟩
  cases out1 with
  | pass =>
    by_cases hn : value.isNullish
    · simp [hn]
    · have hn2 : value.isNullish = false := by simpa using hn
      rcases h2 : Property.runT st p "type" value ctx path with ⟨out2, tr2⟩
      cases out2 <;> simp [hn2, h2, runRemainingT_eq_filter]
      rw [hfun]
      exact ⟨rfl, rfl⟩
  | fail e => simp
  | tyError => simp

theorem runSeqT_count_le (st : Store) (p : Property) (names : List String)
    (value ctx : Value) (path : String) (t : String) :
    ((runSeqT st p names value ctx path).2.count t) ≤ names.count t := by
  induction names with
  | nil => simp [runSeqT]
  | cons n rest ih =>
    have htr := runT_trace st p n value ctx path
    rcases hrt : Property.runT st p n value ctx path with ⟨out, tr⟩
    rw [hrt] at htr
    simp only [] at htr
    have htc : tr.count t ≤ [n].count t := by
      rcases htr with h | h <;> subst h <;> simp
    cases out with
    | pass =>
      simp only [runSeqT, hrt]
      calc (tr ++ (runSeqT st p rest value ctx path).2).count t
          = tr.count t + ((runSeqT st p rest value ctx path).2).count t := by
            simp [List.count_append]
        _ ≤ [n].count t + rest.count t := Nat.add_le_add htc ih
        _ = (n :: rest).count t := by simp [List.count_cons]; try omega
    | fail e =>
      simp only [runSeqT, hrt]
      calc tr.count t ≤ [n].count t := htc
        _ ≤ (n :: rest).count t := by simp [List.count_cons]; try omega
    | tyError =>
      simp only [runSeqT, hrt]
      calc tr.count t ≤ [n].count t := htc
        _ ≤ (n :: rest).count t := by simp [List.count_cons]; try omega

theorem runRemaining_pass_of_all (st : Store) (p : Property) (types done : List String)
    (value ctx : Value) (path : String)
    (h : ∀ t ∈ types, Property._run st p t value ctx path = .pass) :
    Property.runRemaining st p types done value ctx path = .pass := by
  induction types with
  | nil => rfl
  | cons t rest ih =>
    have hrest : ∀ t2 ∈ rest, Property._run st p t2 value ctx path = .pass :=
      fun t2 ht2 => h t2 (List.mem_cons_of_mem t ht2)
    by_cases hd : t ∈ done
    · simp [Property.runRemaining, hd, ih hrest]
    · simp [Property.runRemaining, hd, h t (List.mem_cons_self t rest), ih hrest]

theorem error_path_eq (messages : List (String × MessageTemplate)) (t : String)
    (arg : Arg) (path : String) :
    (Property._error messages t arg path).path = path := by
  unfold Property._error
  split
  · rcases assocGet messages t with _ | tpl
    · rfl
    · cases tpl <;> rfl
  · rcases assocGet messages "default" with _ | tpl
    · rfl
    · cases tpl <;> rfl

theorem runSeqT_fail (st : Store) (p : Property) (names : List String)
    (value ctx : Value) (path : String) (e : VError) (tr : List String)
    (h : runSeqT st p names value ctx path = (.fail e, tr)) :
    ∃ pre t en f, tr = pre ++ [t] ∧ t ∈ names ∧
      assocGet p.registry t = some en ∧
      Property.effectiveValidator st p t = some f ∧
      f value ctx en.arg = false ∧
      e = Property._error (st.mtables p.messagesRef) t en.arg path ∧
      (∀ t2 ∈ pre, ∃ en2 f2, assocGet p.registry t2 = some en2 ∧
        Property.effectiveValidator st p t2 = some f2 ∧ f2 value ctx en2.arg = true) := by
  induction names generalizing tr with
  | nil =>
    rw [runSeqT] at h
    exact absurd (congrArg Prod.fst h) (by simp)
  | cons n rest ih =>
    rcases hrt : Property.runT st p n value ctx path with ⟨out, tr0⟩
    cases out with
    | pass =>
      rw [runSeqT, hrt] at h
      have h1 := congrArg Prod.fst h
      have h2 := congrArg Prod.snd h
      simp only [] at h1 h2
      rcases hseq : runSeqT st p rest value ctx path with ⟨outR, trR⟩
      rw [hseq] at h1 h2
      simp only [] at h1 h2
      rcases ih trR (by rw [hseq, ← h1]) with ⟨pre, t, en, f, hpre, hmem, hget, heff, hf, he, hpass⟩
      refine ⟨tr0 ++ pre, t, en, f, ?_, List.mem_cons_of_mem n hmem, hget, heff, hf, he, ?_⟩
      · rw [← h2, hpre, List.append_assoc]
      · intro t2 ht2
        rcases List.mem_append.mp ht2 with ht0 | htp
        · rcases runT_pass st p n value ctx path tr0 hrt with h0 | ⟨heq, en2, f2, hg2, he2, hb2⟩
          · subst h0; simp at ht0
          · subst heq
            rcases List.mem_singleton.mp ht0 with rfl
            exact ⟨en2, f2, hg2, he2, hb2⟩
        · exact hpass t2 htp
    | fail e0 =>
      rw [runSeqT, hrt] at h
      have h1 := congrArg Prod.fst h
      have h2 := congrArg Prod.snd h
      simp only [] at h1 h2
      rcases runT_fail st p n value ctx path e0 tr0 hrt with ⟨htr0, en, f, hget, heff, hf, he⟩
      refine ⟨[], n, en, f, ?_, List.mem_cons_self n rest, hget, heff, hf, ?_, by simp⟩
      · rw [← h2, htr0]; simp
      · rw [← VResult.fail.inj h1, he]
    | tyError =>
      rw [runSeqT, hrt] at h
      exact absurd (congrArg Prod.fst h) (by simp)

theorem validate_pass_of_all (st : Store) (p : Property) (value ctx : Value)
    (path : String)
    (h : ∀ t en, assocGet p.registry t = some en →
      ∃ f, Property.effectiveValidator st p t = some f ∧ f value ctx en.arg = true) :
    Property.validate st p value ctx path = .pass := by
  have hrun : ∀ t, Property._run st p t value ctx path = .pass := by
    intro t
    rcases hr : assocGet p.registry t with _ | en
    · exact run_not_registered st p t value ctx path hr
    · rcases h t en hr with ⟨f, heff, hf⟩
      rw [run_resolved st p t value ctx path en f hr heff, hf]
      simp
  have hrem := runRemaining_pass_of_all st p (p.registry.map (·.1))
    ["required", "type"] value ctx path (fun t _ => hrun t)
  by_cases hn : value.isNullish <;>
    simp [Property.validate, hrun "required", hrun "type", hn, hrem]

theorem claimOrder_passed_witness (st : Store) (p : Property) (t : String)
    (value ctx : Value) (path : String) (tr : List String)
    (h : Property.runT st p t value ctx path = (.pass, tr)) :
    ∀ t2 ∈ tr, ∃ en2 f2, assocGet p.registry t2 = some en2 ∧
      Property.effectiveValidator st p t2 = some f2 ∧ f2 value ctx en2.arg = true := by
  intro t2 ht2
  rcases runT_pass st p t value ctx path tr h with h0 | ⟨heq, en2, f2, hg2, he2, hb2⟩
  · subst h0; simp at ht2
  · subst heq
    rcases List.mem_singleton.mp ht2 with rfl
    exact ⟨en2, f2, hg2, he2, hb2⟩

theorem claimOrder_fail_char (st : Store) (p : Property) (value ctx : Value)
    (path : String) (e : VError)
    (h : (claimOrderTrace st p value ctx path).1 = .fail e) :
    ∃ pre t en f, (claimOrderTrace st p value ctx path).2 = pre ++ [t] ∧
      assocGet p.registry t = some en ∧
      Property.effectiveValidator st p t = some f ∧
      f value ctx en.arg = false ∧
      e = Property._error (st.mtables p.messagesRef) t en.arg path ∧
      (∀ t2 ∈ pre, ∃ en2 f2, assocGet p.registry t2 = some en2 ∧
        Property.effectiveValidator st p t2 = some f2 ∧ f2 value ctx en2.arg = true) := by
  unfold claimOrderTrace at h ⊢
  rcases h1 : Property.runT st p "required" value ctx path with ⟨out1, tr1⟩
  rw [h1] at h
  cases out1 with
  | pass =>
    simp only [] at h ⊢
    by_cases hn : value.isNullish
    · simp [hn] at h
    · have hn2 : value.isNullish = false := by simpa using hn
      rw [hn2] at h ⊢
      simp only [Bool.false_eq_true, if_false] at h ⊢
      rcases h2 : Property.runT st p "type" value ctx path with ⟨out2, tr2⟩
      rw [h2] at h
      cases out2 with
      | pass =>
        simp only [] at h ⊢
        have hs : runSeqT st p
            ((p.registry.map (·.1)).filter (fun t => t != "required" && t != "type"))
            value ctx path =
            (.fail e, (runSeqT st p
              ((p.registry.map (·.1)).filter (fun t => t != "required" && t != "type"))
              value ctx path).2) := by
          rw [← h]
        rcases runSeqT_fail st p _ value ctx path e _ hs with
          ⟨pre, t, en, f, hpre, _, hget, heff, hf, he, hpass⟩
        refine ⟨tr1 ++ tr2 ++ pre, t, en, f, ?_, hget, heff, hf, he, ?_⟩
        · rw [hpre]
          simp [List.append_assoc]
        · intro t2 ht2
          rcases List.mem_append.mp ht2 with ht12 | htp
          · rcases List.mem_append.mp ht12 with ht1 | ht2b
            · exact claimOrder_passed_witness st p "required" value ctx path tr1 h1 t2 ht1
            · exact claimOrder_passed_witness st p "type" value ctx path tr2 h2 t2 ht2b
          · exact hpass t2 htp
      | fail e2 =>
        simp only [] at h ⊢
        have he2 : e2 = e := by simpa using h
        subst he2
        rcases runT_fail st p "type" value ctx path e2 tr2 h2 with
          ⟨htr2, en, f, hget, heff, hf, he⟩
        refine ⟨tr1, "type", en, f, by rw [htr2], hget, heff, hf, he, ?_⟩
        exact claimOrder_passed_witness st p "required" value ctx path tr1 h1
      | tyError => simp at h
  | fail e1 =>
    simp only [] at h ⊢
    have he1 : e1 = e := by simpa using h
    subst he1
    rcases runT_fail st p "required" value ctx path e1 tr1 h1 with
      ⟨htr1, en, f, hget, heff, hf, he⟩
    exact ⟨[], "required", en, f, by rw [htr1]; simp, hget, heff, hf, he, by simp⟩
  | tyError => simp at h

theorem validate_fail_char (st : Store) (p : Property) (value ctx : Value)
    (path : String) (e : VError)
    (h : Property.validate st p value ctx path = .fail e) :
    ∃ pre t en f, (Property.validateTrace st p value ctx path).2 = pre ++ [t] ∧
      assocGet p.registry t = some en ∧
      Property.effectiveValidator st p t = some f ∧
      f value ctx en.arg = false ∧
      e = Property._error (st.mtables p.messagesRef) t en.arg path ∧
      (∀ t2 ∈ pre, ∃ en2 f2, assocGet p.registry t2 = some en2 ∧
        Property.effectiveValidator st p t2 = some f2 ∧ f2 value ctx en2.arg = true) := by
  have hfst := validateTrace_fst st p value ctx path
  rw [validateTrace_eq_claimOrder] at hfst ⊢
  rw [h] at hfst
  exact claimOrder_fail_char st p value ctx path e hfst

theorem eff_some_get (st : Store) (p : Property) (t : String) (f : ValidatorFn)
    (h : Property.effectiveValidator st p t = some f) :
    ∃ en, assocGet p.registry t = some en ∧
      en.fn.orElse (fun _ => assocGet (st.vtables p.validatorsRef) t) = some f := by
  rcases hr : assocGet p.registry t with _ | en
  · simp [Property.effectiveValidator, hr] at h
  · exact ⟨en, rfl, by simpa [Property.effectiveValidator, hr] using h⟩

theorem runT_of_eff (st : Store) (p : Property) (t : String) (value ctx : Value)
    (path : String) (en : RegEntry) (f : ValidatorFn)
    (hget : assocGet p.registry t = some en)
    (heff : Property.effectiveValidator st p t = some f) :
    Property.runT st p t value ctx path =
      ((if f value ctx en.arg then VResult.pass
        else .fail (Property._error (st.mtables p.messagesRef) t en.arg path)), [t]) := by
  have he : en.fn.orElse (fun _ => assocGet (st.vtables p.validatorsRef) t) = some f := by
    simpa [Property.effectiveValidator, hget] using heff
  by_cases hb : f value ctx en.arg <;> simp [Property.runT, hget, he, hb]

theorem validateTrace_parts (st : Store) (p : Property) (value ctx : Value)
    (path : String) :
    ∃ tr1 tr2 tr3, (Property.validateTrace st p value ctx path).2 = tr1 ++ (tr2 ++ tr3) ∧
      (tr1 = [] ∨ tr1 = ["required"]) ∧ (tr2 = [] ∨ tr2 = ["type"]) ∧
      ∀ t, tr3.count t ≤
        ((p.registry.map (·.1)).filter (fun t2 => t2 != "required" && t2 != "type")).count t := by
  rw [validateTrace_eq_claimOrder]
  unfold claimOrderTrace
  have htr1 := runT_trace st p "required" value ctx path
  have htr2 := runT_trace st p "type" value ctx path
  rcases h1 : Property.runT st p "required" value ctx path with ⟨out1, tr1⟩
  rw [h1] at htr1
  simp only [] at htr1
  cases out1 with
  | pass =>
    simp only []
    by_cases hn : value.isNullish
    · rw [hn]
      exact ⟨tr1, [], [], by simp, htr1, by simp, by simp⟩
    · have hn2 : value.isNullish = false := by simpa using hn
      rw [hn2]
      simp only [Bool.false_eq_true, if_false]
      rcases h2 : Property.runT st p "type" value ctx path with ⟨out2, tr2⟩
      rw [h2] at htr2
      simp only [] at htr2
      cases out2 with
      | pass =>
        refine ⟨tr1, tr2,
          (runSeqT st p
            ((p.registry.map (·.1)).filter (fun t2 => t2 != "required" && t2 != "type"))
            value ctx path).2, by simp [List.append_assoc], htr1, htr2, ?_⟩
        intro t
        exact runSeqT_count_le st p _ value ctx path t
      | fail e2 => exact ⟨tr1, tr2, [], by simp, htr1, htr2, by simp⟩
      | tyError => exact ⟨tr1, tr2, [], by simp, htr1, htr2, by simp⟩
  | fail e1 => exact ⟨tr1, [], [], by simp, htr1, by simp, by simp⟩
  | tyError => exact ⟨tr1, [], [], by simp, htr1, by simp, by simp⟩

theorem count_filter_le_keys (p : Property) (t : String) :
    ((p.registry.map (·.1)).filter (fun t2 => t2 != "required" && t2 != "type")).count t ≤
      (p.registry.map (·.1)).count t :=
  (List.filter_sublist _).count_le t

theorem count_filter_required (p : Property) :
    ((p.registry.map (·.1)).filter (fun t2 => t2 != "required" && t2 != "type")).count
      "required" = 0 := by
  rw [List.count_eq_zero]
  intro hmem
  have := List.of_mem_filter hmem
  simp at this

theorem count_filter_type (p : Property) :
    ((p.registry.map (·.1)).filter (fun t2 => t2 != "required" && t2 != "type")).count
      "type" = 0 := by
  rw [List.count_eq_zero]
  intro hmem
  have := List.of_mem_filter hmem
  simp at this

/-! ### Claim theorems -/

/-- C1: `Property.validate` evaluates `required` first and, when it
fails, returns its error having run nothing else; when the value is
null-ish and the required check passed, validation stops and succeeds, so
no further validator sees the value; otherwise `type` runs next and then
every other registered validator in registration order, stopping at the
first failure (the trace of the source `validate` equals the claimed
order `claimOrderTrace`); `required` and `type` are each invoked exactly
once per call regardless of how many validators are registered. -/
theorem claim1_validate_evaluation_order (st : Store) (p : Property) (value ctx : Value)
    (path : String) :
    Property.validateTrace st p value ctx path = claimOrderTrace st p value ctx path ∧
    (∀ e, Property._run st p "required" value ctx path = .fail e →
      Property.validateTrace st p value ctx path = (.fail e, ["required"])) ∧
    (Property._run st p "required" value ctx path = .pass → value.isNullish = true →
      Property.validate st p value ctx path = .pass) ∧
    ((Property.effectiveValidator st p "required").isSome →
      (Property.validateTrace st p value ctx path).2.count "required" = 1) ∧
    ((Property.effectiveValidator st p "type").isSome →
      Property._run st p "required" value ctx path = .pass → value.isNullish = false →
      (Property.validateTrace st p value ctx path).2.count "type" = 1) := by
  have hseqR : (runSeqT st p
      ((p.registry.map (·.1)).filter (fun t => t != "required" && t != "type"))
      value ctx path).2.count "required" = 0 := by
    have ha := runSeqT_count_le st p
      ((p.registry.map (·.1)).filter (fun t => t != "required" && t != "type"))
      value ctx path "required"
    have hb := count_filter_required p
    omega
  have hseqY : (runSeqT st p
      ((p.registry.map (·.1)).filter (fun t => t != "required" && t != "type"))
      value ctx path).2.count "type" = 0 := by
    have ha := runSeqT_count_le st p
      ((p.registry.map (·.1)).filter (fun t => t != "required" && t != "type"))
      value ctx path "type"
    have hb := count_filter_type p
    omega
  refine ⟨validateTrace_eq_claimOrder st p value ctx path, ?_, ?_, ?_, ?_⟩
  · intro e he
    have hf := runT_fst st p "required" value ctx path
    rw [he] at hf
    have hT : Property.runT st p "required" value ctx path =
        (.fail e, (Property.runT st p "required" value ctx path).2) := by
      rw [← hf]
    have htr := (runT_fail st p "required" value ctx path e _ hT).1
    have hT2 : Property.runT st p "required" value ctx path = (.fail e, ["required"]) := by
      rw [hT, htr]
    rw [validateTrace_eq_claimOrder]
    unfold claimOrderTrace
    rw [hT2]
  · intro hreq hnull
    simp [Property.validate, hreq, hnull]
  · intro hsome
    rcases Option.isSome_iff_exists.mp hsome with ⟨f, hf⟩
    rcases eff_some_get st p "required" f hf with ⟨en, hget, _⟩
    have hrt := runT_of_eff st p "required" value ctx path en f hget hf
    rw [validateTrace_eq_claimOrder]
    unfold claimOrderTrace
    rw [hrt]
    by_cases hb : f value ctx en.arg
    · simp only [hb, if_true]
      by_cases hn : value.isNullish
      · rw [hn]
        simp
      · have hn2 : value.isNullish = false := by simpa using hn
        rw [hn2]
        simp only [Bool.false_eq_true, if_false]
        have htr2 := runT_trace st p "type" value ctx path
        rcases h2 : Property.runT st p "type" value ctx path with ⟨out2, tr2⟩
        rw [h2] at htr2
        simp only [] at htr2
        have hc2 : tr2.count "required" = 0 := by
          rcases htr2 with rfl | rfl <;> simp
        cases out2 with
        | pass => simp [List.count_append, hc2, hseqR]
        | fail e2 => simp [List.count_append, hc2]
        | tyError => simp [List.count_append, hc2]
    · simp only [hb, if_false]
      simp
  · intro hsome hreq hn2
    rcases Option.isSome_iff_exists.mp hsome with ⟨g, hg⟩
    rcases eff_some_get st p "type" g hg with ⟨en2, hget2, _⟩
    have hf := runT_fst st p "required" value ctx path
    rw [hreq] at hf
    have hT : Property.runT st p "required" value ctx path =
        (.pass, (Property.runT st p "required" value ctx path).2) := by
      rw [← hf]
    have htr1 := runT_trace st p "required" value ctx path
    have hc1 : (Property.runT st p "required" value ctx path).2.count "type" = 0 := by
      rcases htr1 with h | h <;> rw [h] <;> simp
    have hrt2 := runT_of_eff st p "type" value ctx path en2 g hget2 hg
    rw [validateTrace_eq_claimOrder]
    unfold claimOrderTrace
    rw [hT]
    simp only []
    rw [hn2]
    simp only [Bool.false_eq_true, if_false]
    rw [hrt2]
    by_cases hb : g value ctx en2.arg
    · simp only [hb, if_true]
      simp [List.count_append, hc1, hseqY]
    · simp only [hb, if_false]
      simp [List.count_append, hc1]

/-- C1 witness: on the fixture property (`required`, `type`, `length`
registered, built-in tables) validating `"abc"`, `required` and `type`
are each invoked exactly once, and validating `null` with required
failing reports the required error having run nothing else. -/
theorem claim1_witness :
    (Property.validateTrace fixtureStore fixtureProp (.vStr "abc") (.vObj []) "name").2.count
      "required" = 1 ∧
    (Property.validateTrace fixtureStore fixtureProp (.vStr "abc") (.vObj []) "name").2.count
      "type" = 1 ∧
    Property.validateTrace fixtureStore fixtureProp .vNull (.vObj []) "name" =
      (.fail { message := "name is required", path := "name" }, ["required"]) := by
  refine ⟨?_, ?_, ?_⟩
  · exact (claim1_validate_evaluation_order fixtureStore fixtureProp (.vStr "abc")
      (.vObj []) "name").2.2.2.1 (by rfl)
  · exact (claim1_validate_evaluation_order fixtureStore fixtureProp (.vStr "abc")
      (.vObj []) "name").2.2.2.2 (by rfl) (by rfl) (by rfl)
  · exact (claim1_validate_evaluation_order fixtureStore fixtureProp .vNull
      (.vObj []) "name").2.1 { message := "name is required", path := "name" } (by rfl)

/-- C2 counterexample: a property registering the name `"exotic"` with no
override function, over a schema whose validators table has no entry of
that name. `validate` reaches `validator.call` with `validator` equal to
`undefined` and throws a TypeError (modelled by `.tyError`) — it does not
treat the entry as a silent no-op. -/
theorem claim2_counterexample :
    Property.validate emptyStore orphanProp (.vStr "v") (.vObj []) "x" = .tyError := rfl

/-- C2 amended: a validator name is silently skipped (never runs, never
fails) exactly when it is absent from the property's registry; when a
name IS registered without a per-property override and the schema's
validators table contains no function of that name, `_run` (and hence
`validate`, on reaching that entry) raises a TypeError instead. -/
theorem claim2_unregistered_skip_amended (st : Store) (p : Property) (t : String)
    (value ctx : Value) (path : String) :
    (assocGet p.registry t = none → Property._run st p t value ctx path = .pass) ∧
    (∀ en, assocGet p.registry t = some en → en.fn = none →
      assocGet (st.vtables p.validatorsRef) t = none →
      Property._run st p t value ctx path = .tyError) := by
  constructor
  · intro h
    exact run_not_registered st p t value ctx path h
  · intro en hget hfn hv
    exact run_unresolved st p t value ctx path en hget hfn hv

/-- C2 witness: the fixture property does not register `"nonempty"`, so
`_run` on it is a silent no-op; on the orphan property's `"exotic"` entry
(no override, no table function) `_run` throws. -/
theorem claim2_witness :
    Property._run fixtureStore fixtureProp "nonempty" (.vStr "abc") (.vObj []) "name" =
      .pass ∧
    Property._run emptyStore orphanProp "exotic" (.vStr "v") (.vObj []) "x" = .tyError := by
  constructor
  · exact (claim2_unregistered_skip_amended fixtureStore fixtureProp "nonempty"
      (.vStr "abc") (.vObj []) "name").1 (by rfl)
  · exact (claim2_unregistered_skip_amended emptyStore orphanProp "exotic"
      (.vStr "v") (.vObj []) "x").2 { arg := .aNull, fn := none } (by rfl) (by rfl) (by rfl)

/-- C3: `validate` returns `pass` (the JavaScript `false`) when every
registered check resolves and accepts the value; when it returns an error,
the error carries the given path and is exactly `_error` applied to the
first failing registered check (every check invoked before it passed);
and a single call produces at most one error. -/
theorem claim3_validate_result_contract (st : Store) (p : Property) (value ctx : Value)
    (path : String) :
    ((∀ t en, assocGet p.registry t = some en →
        ∃ f, Property.effectiveValidator st p t = some f ∧ f value ctx en.arg = true) →
      Property.validate st p value ctx path = .pass) ∧
    (∀ e, Property.validate st p value ctx path = .fail e →
      e.path = path ∧
      ∃ pre t en f, (Property.validateTrace st p value ctx path).2 = pre ++ [t] ∧
        assocGet p.registry t = some en ∧
        Property.effectiveValidator st p t = some f ∧
        f value ctx en.arg = false ∧
        e = Property._error (st.mtables p.messagesRef) t en.arg path ∧
        (∀ t2 ∈ pre, ∃ en2 f2, assocGet p.registry t2 = some en2 ∧
          Property.effectiveValidator st p t2 = some f2 ∧ f2 value ctx en2.arg = true)) ∧
    (∀ e1 e2, Property.validate st p value ctx path = .fail e1 →
      Property.validate st p value ctx path = .fail e2 → e1 = e2) := by
  refine ⟨validate_pass_of_all st p value ctx path, ?_, ?_⟩
  · intro e he
    rcases validate_fail_char st p value ctx path e he with
      ⟨pre, t, en, f, hpre, hget, heff, hf, herr, hpass⟩
    refine ⟨?_, pre, t, en, f, hpre, hget, heff, hf, herr, hpass⟩
    rw [herr]
    exact error_path_eq (st.mtables p.messagesRef) t en.arg path
  · intro e1 e2 h1 h2
    rw [h1] at h2
    exact VResult.fail.inj h2

/-- C3 witness: the fixture property accepts `"abc"`; on `"a"` (length
below the min bound) the returned error carries the `default` message and
the path. -/
theorem claim3_witness :
    Property.validate fixtureStore fixtureProp (.vStr "abc") (.vObj []) "name" = .pass ∧
    ({ message := "validation failed", path := "name" } : VError).path = "name" := by
  constructor
  · apply (claim3_validate_result_contract fixtureStore fixtureProp (.vStr "abc")
      (.vObj []) "name").1
    intro t en h
    have hmem := assocGet_mem_keys _ _ _ h
    have hkeys : fixtureProp.registry.map (·.1) = ["required", "type", "length"] := rfl
    rw [hkeys] at hmem
    simp only [List.mem_cons, List.not_mem_nil, or_false] at hmem
    rcases hmem with rfl | rfl | rfl
    · cases Option.some.inj h
      exact ⟨Validators.required, rfl, rfl⟩
    · cases Option.some.inj h
      exact ⟨Validators.type, rfl, rfl⟩
    · cases Option.some.inj h
      exact ⟨Validators.length, rfl, rfl⟩
  · exact ((claim3_validate_result_contract fixtureStore fixtureProp (.vStr "a")
      (.vObj []) "name").2.1 { message := "validation failed", path := "name" }
      (by rfl)).1

/-- C4: after `required(false)`, `validate(null)` and `validate(undefined)`
both return success — regardless of the other validators registered on
the property — because the required check passes (its argument is
`false`) and the null-ish short-circuit then stops validation. The
schema's table must hold the built-in `required` validator, as seeding
guarantees. -/
theorem claim4_required_false_null_passes (st : Store) (p : Property) (ctx : Value)
    (path : String)
    (h : assocGet (st.vtables p.validatorsRef) "required" = some Validators.required) :
    Property.validate st (p.required false) .vNull ctx path = .pass ∧
    Property.validate st (p.required false) .vUndefined ctx path = .pass := by
  have hget : assocGet (p.required false).registry "required" =
      some { arg := .aBool false, fn := none } :=
    assocGet_assocSet_self p.registry "required" { arg := .aBool false, fn := none }
  have heff : Property.effectiveValidator st (p.required false) "required" =
      some Validators.required := by
    simp [Property.effectiveValidator, hget, Option.orElse]
    exact h
  constructor
  · have hrun := run_resolved st (p.required false) "required" .vNull ctx path
      { arg := .aBool false, fn := none } Validators.required hget heff
    simp only [Validators.required, if_true] at hrun
    simp [Property.validate, hrun, Value.isNullish]
  · have hrun := run_resolved st (p.required false) "required" .vUndefined ctx path
      { arg := .aBool false, fn := none } Validators.required hget heff
    simp only [Validators.required, if_true] at hrun
    simp [Property.validate, hrun, Value.isNullish]

/-- C4 witness: a property with `type`, `length`, `enum` and `match`
rules plus `required(false)` accepts both `null` and `undefined`. -/
theorem claim4_witness :
    Property.validate fixtureStore
      ((((((Property.construct "z" fixtureSchema).type "string").length (some 2) (some 5)).enum
        [.vStr "abc"]).matchRegexp (fun _ => false)).required false) .vNull (.vObj []) "z" =
      .pass ∧
    Property.validate fixtureStore
      ((((((Property.construct "z" fixtureSchema).type "string").length (some 2) (some 5)).enum
        [.vStr "abc"]).matchRegexp (fun _ => false)).required false) .vUndefined (.vObj [])
      "z" = .pass :=
  claim4_required_false_null_passes fixtureStore
    (((((Property.construct "z" fixtureSchema).type "string").length (some 2) (some 5)).enum
      [.vStr "abc"]).matchRegexp (fun _ => false)) (.vObj []) "z" (by rfl)

/-- C5: the message is obtained by looking up the failing validator's
name in the messages table, falling back to `default` when no entry of
that name exists; a function template is invoked with `(path, arg)` and
the reported string equals its return exactly; the error carries the
path; and every error `validate` returns is built by `_error` from the
shared messages table, the failing name, its argument and the path. -/
theorem claim5_error_message_construction :
    (∀ (msgs : List (String × MessageTemplate)) t arg path,
      (Property._error msgs t arg path).path = path) ∧
    (∀ (msgs : List (String × MessageTemplate)) t arg path f,
      assocGet msgs t = some (.fnT f) →
      (Property._error msgs t arg path).message = f path arg) ∧
    (∀ (msgs : List (String × MessageTemplate)) t arg path f,
      assocGet msgs t = none → assocGet msgs "default" = some (.fnT f) →
      (Property._error msgs t arg path).message = f path arg) ∧
    (∀ (msgs : List (String × MessageTemplate)) t arg path s,
      assocGet msgs t = some (.strT s) → s ≠ "" →
      (Property._error msgs t arg path).message = s) ∧
    (∀ (msgs : List (String × MessageTemplate)) t arg path s,
      assocGet msgs t = none → assocGet msgs "default" = some (.strT s) →
      (Property._error msgs t arg path).message = s) ∧
    (∀ st p value ctx path e, Property.validate st p value ctx path = .fail e →
      ∃ t en, assocGet p.registry t = some en ∧
        e = Property._error (st.mtables p.messagesRef) t en.arg path) := by
  refine ⟨?_, ?_, ?_, ?_, ?_, ?_⟩
  · intro msgs t arg path
    exact error_path_eq msgs t arg path
  · intro msgs t arg path f h
    simp [Property._error, h, templateTruthy]
  · intro msgs t arg path f h hd
    simp [Property._error, h, hd, templateTruthy]
  · intro msgs t arg path s h hs
    have hb : (s != "") = true := by simpa using hs
    simp [Property._error, h, templateTruthy, hb]
  · intro msgs t arg path s h hd
    simp [Property._error, h, hd, templateTruthy]
  · intro st p value ctx path e he
    rcases validate_fail_char st p value ctx path e he with
      ⟨_, t, en, _, _, hget, _, _, herr, _⟩
    exact ⟨t, en, hget, herr⟩

/-- C5 witness: the `required` failure on the fixture tables reports
exactly the function template applied to `(path, arg)`, with the path
attached; a name with no template falls back to `default`. -/
theorem claim5_witness :
    (Property._error fixtureMessages "required" (.aBool true) "a.b").message =
      "a.b" ++ " is required" ∧
    (Property._error fixtureMessages "required" (.aBool true) "a.b").path = "a.b" ∧
    (Property._error fixtureMessages "length" (.aRules (some 2) (some 5)) "nm").message =
      "validation failed" := by
  refine ⟨?_, ?_, ?_⟩
  · exact claim5_error_message_construction.2.1 fixtureMessages "required" (.aBool true)
      "a.b" (fun path _ => path ++ " is required") (by rfl)
  · exact claim5_error_message_construction.1 fixtureMessages "required" (.aBool true) "a.b"
  · exact claim5_error_message_construction.2.2.2.2.1 fixtureMessages "length"
      (.aRules (some 2) (some 5)) "nm" "validation failed" (by rfl) (by rfl)

/-- C6: the Property constructor copies references to the Schema's
validators and messages tables, never their contents; therefore, for an
entry registered without a per-property override, mutating the Schema's
validators-table entry after the property exists changes the function the
property's next `_run` (hence `validate`) uses, and mutating a
messages-table entry changes the template `_error` uses. -/
theorem claim6_shared_tables :
    (∀ n sch, (Property.construct n sch).validatorsRef = sch.validatorsRef ∧
      (Property.construct n sch).messagesRef = sch.messagesRef) ∧
    (∀ (st : Store) (sch : Schema) (p : Property) (t : String) (f : ValidatorFn)
        (value ctx : Value) (path : String) (en : RegEntry),
      p.validatorsRef = sch.validatorsRef →
      assocGet p.registry t = some en → en.fn = none →
      Property._run (st.setValidator sch.validatorsRef t f) p t value ctx path =
        (if f value ctx en.arg then .pass
         else .fail (Property._error (st.mtables p.messagesRef) t en.arg path))) ∧
    (∀ (st : Store) (sch : Schema) (p : Property) (t : String) (arg : Arg)
        (path : String) (tpl : MessageTemplate),
      p.messagesRef = sch.messagesRef →
      templateTruthy (some tpl) = true →
      Property._error ((st.setMessage sch.messagesRef t tpl).mtables p.messagesRef) t arg
        path =
        (match tpl with
         | .strT s => { message := s, path := path }
         | .fnT f2 => { message := f2 path arg, path := path })) := by
  refine ⟨fun n sch => ⟨rfl, rfl⟩, ?_, ?_⟩
  · intro st sch p t f value ctx path en hp hget hfn
    have hv : (st.setValidator sch.validatorsRef t f).vtables p.validatorsRef =
        assocSet (st.vtables sch.validatorsRef) t f := by
      simp [Store.setValidator, hp]
    have heff : Property.effectiveValidator (st.setValidator sch.validatorsRef t f) p t =
        some f := by
      simp [Property.effectiveValidator, hget, hfn, Option.orElse, hv,
        assocGet_assocSet_self]
    exact run_resolved (st.setValidator sch.validatorsRef t f) p t value ctx path en f
      hget heff
  · intro st sch p t arg path tpl hp htpl
    have hm : (st.setMessage sch.messagesRef t tpl).mtables p.messagesRef =
        assocSet (st.mtables sch.messagesRef) t tpl := by
      simp [Store.setMessage, hp]
    rw [hm]
    have hget : assocGet (assocSet (st.mtables sch.messagesRef) t tpl) t = some tpl :=
      assocGet_assocSet_self (st.mtables sch.messagesRef) t tpl
    cases tpl with
    | strT s => simp [Property._error, hget, templateTruthy] at htpl ⊢; simp [htpl]
    | fnT f2 => simp [Property._error, hget, templateTruthy]

/-- C6 witness: overwriting the shared table entry for `"type"` with a
function that always rejects makes the already-constructed fixture
property fail its next `type` check, even though the previous table entry
accepted the value; overwriting the `"type"` message template changes the
reported message. -/
theorem claim6_witness :
    Property._run (fixtureStore.setValidator 0 "type" (fun _ _ _ => false)) fixtureProp
      "type" (.vStr "abc") (.vObj []) "name" =
      .fail { message := "name has wrong type", path := "name" } ∧
    Property._error ((fixtureStore.setMessage 0 "type" (.strT "bad type")).mtables 0) "type"
      (.aStr "string") "name" = { message := "bad type", path := "name" } := by
  constructor
  · have h := claim6_shared_tables.2.1 fixtureStore fixtureSchema fixtureProp "type"
      (fun _ _ _ => false) (.vStr "abc") (.vObj []) "name"
      { arg := .aStr "string", fn := none } rfl rfl rfl
    simpa using h
  · exact claim6_shared_tables.2.2 fixtureStore fixtureSchema fixtureProp "type"
      (.aStr "string") "name" (.strT "bad type") rfl (by rfl)

/-- C7 counterexample: with `{max: 0}` the bound is provided, the string
`"a"` has length `1 > 0`, yet the built-in `length` validator returns
`true` (passes) — `0` is falsy in JavaScript, so `if (max && ...)` skips
the check. The claim says a value above a provided max bound fails. -/
theorem claim7_counterexample :
    Validators.length (.vStr "a") (.vObj []) (.aRules none (some 0)) = true ∧
    Value.lengthOf (.vStr "a") > 0 := by
  exact ⟨rfl, by decide⟩

/-- C7 amended: for strings and arrays, the built-in `length` validator
fails exactly when the length is below a provided NONZERO min bound or
above a provided NONZERO max bound; a bound that is not provided — or is
provided as `0`, which is falsy in JavaScript — is not enforced. -/
theorem claim7_length_bounds_amended (value ctx : Value) (min max : Option Nat)
    (_h : typeOf value = "string" ∨ typeOf value = "array") :
    Validators.length value ctx (.aRules min max) = false ↔
      (∃ m, min = some m ∧ 0 < m ∧ value.lengthOf < m) ∨
      (∃ M, max = some M ∧ 0 < M ∧ M < value.lengthOf) := by
  rcases min with _ | m <;> rcases max with _ | M
  · simp [Validators.length, boundTruthy]
  · by_cases hM : M = 0
    · subst hM
      simp [Validators.length, boundTruthy]
    · by_cases hl : M < value.lengthOf <;>
        simp [Validators.length, boundTruthy, hM, hl, Nat.pos_of_ne_zero]
  · by_cases hm : m = 0
    · subst hm
      simp [Validators.length, boundTruthy]
    · by_cases hl : value.lengthOf < m <;>
        simp [Validators.length, boundTruthy, hm, hl, Nat.pos_of_ne_zero]
  · by_cases hm : m = 0 <;> by_cases hM : M = 0 <;>
      by_cases hl1 : value.lengthOf < m <;> by_cases hl2 : M < value.lengthOf <;>
      simp [Validators.length, boundTruthy, hm, hM, hl1, hl2] <;> omega

/-- C7 witness: `"abcdef"` (length 6) fails `{min: 2, max: 5}`, and
`"abc"` (length 3) satisfies it. -/
theorem claim7_witness :
    (Validators.length (.vStr "abcdef") (.vObj []) (.aRules (some 2) (some 5)) = false) ∧
    ¬(Validators.length (.vStr "abc") (.vObj []) (.aRules (some 2) (some 5)) = false) := by
  constructor
  · exact (claim7_length_bounds_amended (.vStr "abcdef") (.vObj []) (some 2) (some 5)
      (Or.inl rfl)).mpr (Or.inr ⟨5, rfl, by decide, by decide⟩)
  · intro hc
    rcases (claim7_length_bounds_amended (.vStr "abc") (.vObj []) (some 2) (some 5)
      (Or.inl rfl)).mp hc with ⟨m, hm, _, hlt⟩ | ⟨M, hM, _, hgt⟩
    · cases Option.some.inj hm
      exact absurd hlt (by decide)
    · cases Option.some.inj hM
      exact absurd hgt (by decide)

/-- C8: `Schema.validate` (modelled from the spec, since the Schema class
of this repository is not under src/) is a pure function of the schema,
the shared-table store, the object and the options, so two calls with S
and O unchanged return identical ordered failure lists. -/
theorem claim8_validate_deterministic (st : Store) (coerce : Value → String → Value)
    (S : SchemaS) (obj : Value) (opts : ValidateOpts) :
    SchemaS.validate st coerce S obj opts = SchemaS.validate st coerce S obj opts ∧
    (SchemaS.validate st coerce S obj opts).1 = (SchemaS.validate st coerce S obj opts).1 :=
  ⟨rfl, rfl⟩

/-- C9: with an argument other than `false`, the built-in `nonempty`
validator fails exactly for strings and arrays of length 0, objects with
zero own keys, and null-ish values of every other classified type; with
argument `false` it always passes. -/
theorem claim9_nonempty_characterization (value ctx : Value) (arg : Arg) :
    (arg = .aBool false → Validators.nonempty value ctx arg = true) ∧
    (arg ≠ .aBool false →
      (Validators.nonempty value ctx arg = false ↔
        ((typeOf value = "string" ∨ typeOf value = "array") ∧ value.lengthOf = 0) ∨
        (typeOf value = "object" ∧ value.keysOf = []) ∨
        (typeOf value ≠ "string" ∧ typeOf value ≠ "array" ∧ typeOf value ≠ "object" ∧
          value.isNullish = true))) := by
  constructor
  · intro h
    subst h
    rfl
  · intro h
    have hred : Validators.nonempty value ctx arg =
        (match typeOf value with
         | "string" => decide (value.lengthOf > 0)
         | "array" => decide (value.lengthOf > 0)
         | "object" => decide (value.keysOf.length > 0)
         | _ => !value.isNullish) := by
      cases arg with
      | aBool b =>
        cases b with
        | false => exact absurd rfl h
        | true => rfl
      | aNull => rfl
      | aStr s => rfl
      | aRules mn mx => rfl
      | aList vs => rfl
      | aRegex te => rfl
    rw [hred]
    cases value <;>
      simp [typeOf, Value.lengthOf, Value.keysOf, Value.isNullish]

/-- C9 witness: the empty string fails `nonempty(true)`; `null` passes
`nonempty(false)`; the number `1` passes `nonempty(true)`. -/
theorem claim9_witness :
    Validators.nonempty (.vStr "") (.vObj []) (.aBool true) = false ∧
    Validators.nonempty .vNull (.vObj []) (.aBool false) = true ∧
    ¬(Validators.nonempty (.vNum 1) (.vObj []) (.aBool true) = false) := by
  refine ⟨?_, ?_, ?_⟩
  · exact ((claim9_nonempty_characterization (.vStr "") (.vObj []) (.aBool true)).2
      (fun hc => absurd (Arg.aBool.inj hc) (by decide))).mpr (Or.inl ⟨Or.inl rfl, rfl⟩)
  · exact (claim9_nonempty_characterization .vNull (.vObj []) (.aBool false)).1 rfl
  · intro hc
    rcases ((claim9_nonempty_characterization (.vNum 1) (.vObj []) (.aBool true)).2
      (fun hc2 => absurd (Arg.aBool.inj hc2) (by decide))).mp hc with
      ⟨hty, _⟩ | ⟨hty, _⟩ | ⟨_, _, _, hnull⟩
    · rcases hty with hty | hty <;> simp [typeOf] at hty
    · simp [typeOf] at hty
    · simp [Value.isNullish] at hnull

/-- C10: the registry holds at most one binding per validator name —
`_register` (hence every builder) replaces an existing entry's argument
and override function in place rather than adding a second entry, key
order and uniqueness are preserved — and consequently each validator name
is invoked at most once per `validate` call. -/
theorem claim10_registry_single_binding :
    (∀ (p : Property) (t : String) (arg : Arg) (fn : Option ValidatorFn),
      assocGet (p._register t arg fn).registry t = some { arg := arg, fn := fn } ∧
      (p._register t arg fn).registry.map (·.1) =
        (if t ∈ p.registry.map (·.1) then p.registry.map (·.1)
         else p.registry.map (·.1) ++ [t]) ∧
      ((p.registry.map (·.1)).Nodup → ((p._register t arg fn).registry.map (·.1)).Nodup)) ∧
    (∀ (st : Store) (p : Property) (value ctx : Value) (path t : String),
      (p.registry.map (·.1)).Nodup →
      (Property.validateTrace st p value ctx path).2.count t ≤ 1) := by
  constructor
  · intro p t arg fn
    refine ⟨assocGet_assocSet_self p.registry t { arg := arg, fn := fn },
      assocSet_keys p.registry t { arg := arg, fn := fn }, ?_⟩
    intro hnd
    simp only [Property._register]
    rw [assocSet_keys p.registry t { arg := arg, fn := fn }]
    by_cases hm : t ∈ p.registry.map (·.1)
    · simpa [hm] using hnd
    · simp [hm, List.nodup_append, hnd]
  · intro st p value ctx path t hnd
    rcases validateTrace_parts st p value ctx path with ⟨tr1, tr2, tr3, htr, h1, h2, h3⟩
    rw [htr, List.count_append, List.count_append]
    have hc3b : tr3.count t ≤ (p.registry.map (·.1)).count t :=
      (h3 t).trans (count_filter_le_keys p t)
    have hkeys : (p.registry.map (·.1)).count t ≤ 1 :=
      List.nodup_iff_count_le_one.mp hnd t
    by_cases hreq : t = "required"
    · subst hreq
      have e3 : tr3.count "required" = 0 :=
        Nat.le_zero.mp ((h3 "required").trans (Nat.le_of_eq (count_filter_required p)))
      have e2 : tr2.count "required" = 0 := by
        rcases h2 with rfl | rfl <;> simp
      have e1 : tr1.count "required" ≤ 1 := by
        rcases h1 with rfl | rfl <;> simp
      omega
    · by_cases hty : t = "type"
      · subst hty
        have e3 : tr3.count "type" = 0 :=
          Nat.le_zero.mp ((h3 "type").trans (Nat.le_of_eq (count_filter_type p)))
        have e1 : tr1.count "type" = 0 := by
          rcases h1 with rfl | rfl <;> simp
        have e2 : tr2.count "type" ≤ 1 := by
          rcases h2 with rfl | rfl <;> simp
        omega
      · have e1 : tr1.count t = 0 := by
          rcases h1 with rfl | rfl <;> simp [List.count_cons, hreq]
        have e2 : tr2.count t = 0 := by
          rcases h2 with rfl | rfl <;> simp [List.count_cons, hty]
        omega

/-- C10 witness: re-registering `"length"` on the fixture property
replaces the entry in place (keys unchanged), and on the fixture
property (whose keys are distinct) every name — here `"length"` — is
invoked at most once per validate call. -/
theorem claim10_witness :
    assocGet ((fixtureProp._register "length" (.aRules none none) none).registry) "length" =
      some { arg := .aRules none none, fn := none } ∧
    (Property.validateTrace fixtureStore fixtureProp (.vStr "abc") (.vObj []) "name").2.count
      "length" ≤ 1 := by
  constructor
  · exact (claim10_registry_single_binding.1 fixtureProp "length" (.aRules none none)
      none).1
  · exact claim10_registry_single_binding.2 fixtureStore fixtureProp (.vStr "abc")
      (.vObj []) "name" "length" (by decide)
